import Mathlib

/-!
Verification of the lazy sequence-view adaptors of cpp-lazy
(map / take / take-while / slice / concatenate).

Sequences are modelled as Lean lists; an iterator range `[begin, end)` into a
sequence is modelled as the list of elements it spans; `collect` (the external
sink of spec section 4.5, `BasicIteratorView::toVector` etc.) drains a view by
repeated increment-until-equal-to-end with exactly one dereference per produced
element.
-/

namespace LzSpec

universe u v

variable {α : Type u} {β : Type v}

/-- Modelled from the spec: `detail::TakeIterator` (referenced by
`src/include/Lz/Take.hpp` but not itself under src/).  The bounded cursor holds
`(sourceCursor, sourceEnd, predicate)`; its equality-against-the-view-end test
reports "end" as soon as the source is exhausted or `predicate(*source)` fails
(spec section 4.3: "iteration stops at the first element failing the predicate,
never dereferencing past it").  Draining such a view over the range `[begin,
end)` (given here as the list of elements it spans) therefore yields the
elements up to but excluding the first one failing the predicate. -/
def takeWhileCollect (p : α → Bool) : List α → List α
  | [] => []
  | x :: xs => if p x then x :: takeWhileCollect p xs else []

/-- Modelled from the spec: the source indices dereferenced while fully draining
a take-while view over a range whose first element sits at source index `i`.
At each equality-against-end check the cursor evaluates `predicate(*source)`
when the source is not exhausted (one dereference of the current element), and
each produced element is dereferenced once more when it is yielded to the sink. -/
def takeWhileDerefs (p : α → Bool) : List α → Nat → List Nat
  | [], _ => []
  | x :: xs, i => if p x then i :: i :: takeWhileDerefs p xs (i + 1) else [i]

/-- A `lz::Take` view (src/include/Lz/Take.hpp): the range `[begin, end)` it was
built over together with the stored stop predicate. -/
structure TakeView (α : Type u) where
  src : List α
  pred : α → Bool

/-- The entry point `lz::takewhilerange(begin, end, predicate)` (Take.hpp line 79): builds the
`Take` view over `[begin, end)` with the given predicate. -/
def takewhilerange (r : List α) (p : α → Bool) : TakeView α :=
  ⟨r, p⟩

/-- The entry point `lz::takerange(begin, end)` (Take.hpp line 144): `takewhilerange` with the
always-true predicate. -/
def takerange (r : List α) : TakeView α :=
  takewhilerange r (fun _ => true)

/-- The entry point `lz::take(iterable, amount)` (Take.hpp line 159): `takerange(begin,
std::next(begin, amount))`, i.e. the range spanning the first `amount` elements
(the caller must keep `amount ≤ length`, spec section 6). -/
def take (S : List α) (amount : Nat) : TakeView α :=
  takerange (S.take amount)

/-- The entry point `lz::slice(iterable, from, to)` (Take.hpp line 175): `takerange(
std::next(begin, from), std::next(begin, to))`, i.e. the range spanning the
elements at indices `from ≤ i < to`. -/
def slice (S : List α) (a b : Nat) : TakeView α :=
  takerange ((S.drop a).take (b - a))

/-- Collecting a `Take` view (spec section 4.5 sink applied to the bounded
cursor pair `begin()`/`end()` of Take.hpp lines 41-51). -/
def TakeView.collect (v : TakeView α) : List α :=
  takeWhileCollect v.pred v.src

/-- Modelled from the spec: draining a concatenate view built by
`lz::concat`/`lz::concatrange` (src/include/Lz/Concatenate.hpp; the fused
cursor `detail::ConcatenateIterator` it references is not itself under src/).
Spec section 4.4: the fused cursor's state is the active slot plus that slot's
current cursor; here `slots` holds, first, the elements from the active cursor
up to the active slot's end, then the later slots' full ranges.  Dereference
yields the active cursor's element; increment advances the active cursor and
switches transparently to the next slot's begin once the active slot is
exhausted; the drain stops at the canonical composite end (positioned at the
end of the last sub-sequence, spec section 3). -/
def concatCollect : List (List α) → List α
  | [] => []
  | [] :: rest => concatCollect rest
  | (x :: xs) :: rest => x :: concatCollect (xs :: rest)
termination_by L => (L.map List.length).sum + L.length
decreasing_by
  all_goals simp only [List.map_cons, List.sum_cons, List.length_cons, List.length_nil]
  all_goals omega

/-- A `detail::MapIterator` (src/include/Lz/detail/MapIterator.hpp lines
12-31): the wrapped source cursor, modelled as its position in the backing
sequence, and the stored function (`_function`, a pointer to the one boxed
callable owned by the `Map` view). -/
structure MapIterator (α : Type u) (β : Type v) where
  _iterator : Nat
  _function : α → β

/-- Dereference of a wrapped source cursor: the backing-sequence element at the
cursor's position — a reference to a real storage location (spec section 4.2). -/
def sourceDeref (st : List α) (i : Nat) (h : i < st.length) : α :=
  st.get ⟨i, h⟩

/-- Dereference, `MapIterator::operator*` (MapIterator.hpp lines 35-37): apply the stored
function to the dereferenced source element.  The codomain is `β` — a
synthesized value, not a storage location of the backing sequence
(MapIterator.hpp lines 22-25: `value_type = FnReturnType` and
`reference = value_type`). -/
def MapIterator.star (st : List α) (it : MapIterator α β) (h : it._iterator < st.length) : β :=
  it._function (sourceDeref st it._iterator h)

/-- Modelled from the spec: `detail::FakePointerProxy`, the class referenced
by MapIterator.hpp line 26 is not under src/; spec section 9 describes it as
"a one-element proxy object constructed from the synthesized value".  It owns
its single value. -/
structure FakePointerProxy (β : Type v) where
  value : β

/-- Member access, `MapIterator::operator->` (MapIterator.hpp lines 39-41): builds a
`FakePointerProxy` from `**this`, so member access goes through a proxy that
owns one synthesized value. -/
def MapIterator.arrow (st : List α) (it : MapIterator α β) (h : it._iterator < st.length) :
    FakePointerProxy β :=
  ⟨it.star st h⟩

/-- Inequality, `MapIterator::operator!=` (MapIterator.hpp line 99): delegates to source
cursor inequality. -/
def MapIterator.ne (a b : MapIterator α β) : Bool :=
  decide (a._iterator ≠ b._iterator)

/-- Equality, `MapIterator::operator==` (MapIterator.hpp line 95): `!(*this != other)` —
derived as the negation of `!=`. -/
def MapIterator.beq (a b : MapIterator α β) : Bool :=
  !(MapIterator.ne a b)

/-- Order, `MapIterator::operator<` (MapIterator.hpp line 103): delegates to the
source cursors' `<`. -/
def MapIterator.lt (a b : MapIterator α β) : Bool :=
  decide (a._iterator < b._iterator)

/-- Order, `MapIterator::operator>` (MapIterator.hpp line 107): `other < *this`. -/
def MapIterator.gt (a b : MapIterator α β) : Bool :=
  MapIterator.lt b a

/-- Order, `MapIterator::operator<=` (MapIterator.hpp line 111): `!(other < *this)`. -/
def MapIterator.le (a b : MapIterator α β) : Bool :=
  !(MapIterator.lt b a)

/-- Order, `MapIterator::operator>=` (MapIterator.hpp line 115): `!(*this < other)`. -/
def MapIterator.ge (a b : MapIterator α β) : Bool :=
  !(MapIterator.lt a b)

/-- Pre-increment, `MapIterator::operator++` (MapIterator.hpp lines 43-46): advance the
wrapped source cursor, return the updated cursor. -/
def MapIterator.preInc (it : MapIterator α β) : MapIterator α β :=
  { it with _iterator := it._iterator + 1 }

/-- Post-increment, `MapIterator::operator++(int)` (MapIterator.hpp lines 48-52): `tmp(*this);
++*this; return tmp` — the pair is (returned value, cursor state after the
call). -/
def MapIterator.postInc (it : MapIterator α β) : MapIterator α β × MapIterator α β :=
  (it, it.preInc)

/-- Pre-decrement, `MapIterator::operator--` (MapIterator.hpp lines 54-57): step the wrapped
source cursor back (stepping before the begin of the backing sequence is a
precondition violation in the source; `Nat` truncation models the in-range
case). -/
def MapIterator.preDec (it : MapIterator α β) : MapIterator α β :=
  { it with _iterator := it._iterator - 1 }

/-- Post-decrement, `MapIterator::operator--(int)` (MapIterator.hpp lines 59-63): `tmp(*this);
--*this; return tmp`. -/
def MapIterator.postDec (it : MapIterator α β) : MapIterator α β × MapIterator α β :=
  (it, it.preDec)

/-- The compile-time iterator traits `concatrange` inspects
(`std::iterator_traits<Iterator>::value_type / pointer / reference`): each
distinct C++ type is modelled as a distinct tag. -/
structure IterTraits where
  value : Nat
  pointer : Nat
  ref : Nat
deriving DecidableEq

/-- The trait `detail::IsAllSame` (src/include/Lz/Concatenate.hpp lines 10-17):
`IsAllSame<Same, First, More...>::value` is `is_same<Same, First>::value &&
IsAllSame<First, More...>::value`, with the two-argument specialization being
`is_same<Same, First>`. -/
def IsAllSame : Nat → Nat → List Nat → Bool
  | same, first, [] => decide (same = first)
  | same, first, m :: more => decide (same = first) && IsAllSame first m more

/-- The pack check `IsAllSame<trait₁, ..., traitₙ>::value` as `concatrange`
instantiates it over a parameter pack; a pack of fewer than two iterators never
reaches it (the arity static_assert fires first). -/
def allSameCheck : List Nat → Bool
  | t1 :: t2 :: more => IsAllSame t1 t2 more
  | _ => true

/-- The entry point `lz::concatrange` (src/include/Lz/Concatenate.hpp lines 74-85) at the level
of its construction-time checks: the static_asserts reject a pack of fewer
than 2 iterators and packs whose value, pointer or reference types mismatch;
only otherwise is the `Concatenate` view produced (modelled as `Except.ok`
carrying the accepted traits). -/
def concatrange (its : List IterTraits) : Except String (List IterTraits) :=
  if its.length < 2 then
    Except.error "amount of iterators/containers cannot be less than or equal to 1"
  else if !allSameCheck (its.map IterTraits.value) then
    Except.error "value types of iterators do not match"
  else if !allSameCheck (its.map IterTraits.pointer) then
    Except.error "pointer types of iterators do not match"
  else if !allSameCheck (its.map IterTraits.ref) then
    Except.error "reference types of iterators do not match"
  else
    Except.ok its

/-- The three cursor capability tiers, strictly ordered by capability
(spec section 3): Forward ⊂ Bidirectional ⊂ RandomAccess. -/
inductive Tier
  | forward
  | bidirectional
  | randomAccess
deriving DecidableEq

/-- Numeric rank of a tier. -/
def Tier.rank : Tier → Nat
  | .forward => 0
  | .bidirectional => 1
  | .randomAccess => 2

/-- A cursor supports decrement exactly when its tier is at least
Bidirectional. -/
def Tier.supportsDecrement (t : Tier) : Bool :=
  decide (1 ≤ t.rank)

/-- A cursor supports offset arithmetic, distance and ordering exactly when
its tier is RandomAccess. -/
def Tier.supportsRandomAccess (t : Tier) : Bool :=
  decide (2 ≤ t.rank)

/-- The weaker of two tiers. -/
def Tier.min (a b : Tier) : Tier :=
  if a.rank ≤ b.rank then a else b

/-- The minimum tier among a list of wrapped cursors (`RandomAccess`, the top
of the capability order, when nothing constrains it). -/
def tierMin : List Tier → Tier
  | [] => .randomAccess
  | t :: ts => Tier.min t (tierMin ts)

/-- The tier `MapIterator::iterator_category` (MapIterator.hpp line 23): exactly the
wrapped source cursor's own category. -/
def mapIteratorCategory (src : Tier) : Tier :=
  src

/-- Modelled from the spec: `TakeIterator`'s capability tier (the class
referenced by Take.hpp is not under src/): the minimum tier among everything
it wraps — a single source cursor (spec sections 3 and 9: an adaptor's tier is
computed as the minimum tier among its inputs, never assumed). -/
def takeIteratorCategory (src : Tier) : Tier :=
  src

/-- Modelled from the spec: `ConcatenateIterator`'s capability tier (the class
referenced by Concatenate.hpp is not under src/): the minimum tier among the N
wrapped cursors. -/
def concatenateIteratorCategory (srcs : List Tier) : Tier :=
  tierMin srcs

/-- Modelled from the spec: assignment through a dereferenced bounded cursor.
`take(array, n)` wraps cursors into the backing array, its element type is a
reference (spec section 8 item 9), and the cursor reached by advancing
`take(array, n).begin()` k times dereferences to the backing element at index
k; assigning `v` through it writes the backing store at index k. -/
def takeAssign (st : List α) (k : Nat) (v : α) : List α :=
  st.set k v

theorem takeWhileCollect_sat (p : α → Bool) (l : List α) :
    ∀ x ∈ takeWhileCollect p l, p x = true := by
  induction l with
  | nil => intro x hx; cases hx
  | cons y ys ih =>
    intro x hx
    by_cases hy : p y = true
    · simp only [takeWhileCollect, hy, if_true, List.mem_cons] at hx
      rcases hx with rfl | hx
      · exact hy
      · exact ih x hx
    · simp only [takeWhileCollect, hy, if_false] at hx
      simp [Bool.not_eq_true] at hy
      simp [hy] at hx

theorem takeWhileCollect_append_drop (p : α → Bool) (l : List α) :
    takeWhileCollect p l ++ l.drop (takeWhileCollect p l).length = l := by
  induction l with
  | nil => rfl
  | cons y ys ih =>
    by_cases hy : p y = true
    · simp only [takeWhileCollect, hy, if_true, List.length_cons, List.cons_append,
        List.drop_succ_cons]
      exact congrArg (y :: ·) ih
    · simp only [Bool.not_eq_true] at hy
      simp [takeWhileCollect, hy]

theorem takeWhileCollect_longest (p : α → Bool) :
    ∀ t u : List α, (∀ x ∈ t, p x = true) →
      t.length ≤ (takeWhileCollect p (t ++ u)).length := by
  intro t
  induction t with
  | nil => intro u _; exact Nat.zero_le _
  | cons y ys ih =>
    intro u hall
    have hy : p y = true := hall y (List.mem_cons_self y ys)
    simp only [List.cons_append, takeWhileCollect, hy, if_true, List.length_cons]
    exact Nat.succ_le_succ (ih u (fun x hx => hall x (List.mem_cons_of_mem y hx)))

theorem takeWhileCollect_next_fails (p : α → Bool) :
    ∀ l : List α, ∀ y : α, l[(takeWhileCollect p l).length]? = some y → p y = false := by
  intro l
  induction l with
  | nil => intro y hy; cases hy
  | cons z zs ih =>
    intro y hy
    by_cases hz : p z = true
    · simp only [takeWhileCollect, hz, if_true, List.length_cons, List.getElem?_cons_succ] at hy
      exact ih y hy
    · simp only [Bool.not_eq_true] at hz
      simp only [takeWhileCollect, hz, Bool.false_eq_true, if_false, List.length_nil,
        List.getElem?_cons_zero, Option.some.injEq] at hy
      subst hy
      exact hz

theorem takeWhileDerefs_le (p : α → Bool) :
    ∀ (l : List α) (i : Nat), ∀ j ∈ takeWhileDerefs p l i,
      j ≤ i + (takeWhileCollect p l).length := by
  intro l
  induction l with
  | nil => intro i j hj; cases hj
  | cons y ys ih =>
    intro i j hj
    by_cases hy : p y = true
    · simp only [takeWhileDerefs, hy, if_true, List.mem_cons] at hj
      simp only [takeWhileCollect, hy, if_true, List.length_cons]
      rcases hj with rfl | rfl | hj
      · exact Nat.le_add_right _ _
      · exact Nat.le_add_right _ _
      · have := ih (i + 1) j hj
        omega
    · simp only [Bool.not_eq_true] at hy
      simp only [takeWhileDerefs, hy, Bool.false_eq_true, if_false, List.mem_singleton] at hj
      subst hj
      exact Nat.le_add_right _ _

theorem takeWhileCollect_true (l : List α) :
    takeWhileCollect (fun _ => true) l = l := by
  induction l with
  | nil => rfl
  | cons x xs ih => simp [takeWhileCollect, ih]

/-- Claim C1: for `0 ≤ n ≤ length S`, collecting `take(S, n)` yields exactly
`n` elements, equal to the first `n` elements of collecting `S`; `take(S, 0)`
collects to the empty result and `take(S, length S)` collects to all of `S`. -/
theorem take_bounds (S : List α) (n : Nat) (h : n ≤ S.length) :
    ((take S n).collect).length = n ∧
    (take S n).collect = S.take n ∧
    (take S 0).collect = [] ∧
    (take S S.length).collect = S := by
  have hcol : ∀ m : Nat, (take S m).collect = S.take m := by
    intro m
    simp [take, takerange, takewhilerange, TakeView.collect, takeWhileCollect_true]
  refine ⟨?_, hcol n, ?_, ?_⟩
  · rw [hcol n, List.length_take]
    exact Nat.min_eq_left h
  · simp [hcol 0]
  · rw [hcol S.length, List.take_length]

/-- Witness for C1 at `S = [10, 20, 30]`, `n = 2`. -/
theorem take_bounds_witness :
    (2 : Nat) ≤ ([10, 20, 30] : List Nat).length ∧
    (((take ([10, 20, 30] : List Nat) 2).collect).length = 2 ∧
      (take ([10, 20, 30] : List Nat) 2).collect = ([10, 20, 30] : List Nat).take 2 ∧
      (take ([10, 20, 30] : List Nat) 0).collect = [] ∧
      (take ([10, 20, 30] : List Nat) ([10, 20, 30] : List Nat).length).collect = [10, 20, 30]) :=
  ⟨by decide, take_bounds [10, 20, 30] 2 (by decide)⟩

/-- Claim C2: collecting `takeWhile(S, p)` yields the longest prefix of `S`
whose elements all satisfy `p` (conjuncts 1-3: all collected elements satisfy
`p`, the collected list is a prefix of `S`, and no `p`-satisfying prefix is
longer); the element immediately after that prefix, when there is one, fails
`p` (conjunct 4); and no source element past that first failing element is
ever dereferenced during iteration (conjunct 5). -/
theorem takeWhile_boundary (S : List α) (p : α → Bool) :
    (∀ x ∈ (takewhilerange S p).collect, p x = true) ∧
    ((takewhilerange S p).collect ++ S.drop ((takewhilerange S p).collect).length = S) ∧
    (∀ t u : List α, t ++ u = S → (∀ x ∈ t, p x = true) →
      t.length ≤ ((takewhilerange S p).collect).length) ∧
    (∀ y : α, S[((takewhilerange S p).collect).length]? = some y → p y = false) ∧
    (∀ j ∈ takeWhileDerefs p S 0, j ≤ ((takewhilerange S p).collect).length) := by
  refine ⟨takeWhileCollect_sat p S, takeWhileCollect_append_drop p S, ?_,
    takeWhileCollect_next_fails p S, ?_⟩
  · intro t u htu hall
    rw [show (takewhilerange S p).collect = takeWhileCollect p (t ++ u) by rw [htu]; rfl]
    exact takeWhileCollect_longest p t u hall
  · intro j hj
    have := takeWhileDerefs_le p S 0 j hj
    simpa using this

/-- Witness for C2 at `S = [1, 2, 5, 3]`, `p x = (x < 5)`: the collected
result is `[1, 2]`, the longest-prefix bound holds at the prefix `[1, 2]`,
the element after the result (`5`) fails the predicate, and the dereference
at index 2 (the failing element, the farthest one touched) is within bound. -/
theorem takeWhile_boundary_witness :
    ((fun x : Nat => decide (x < 5)) 2 = true) ∧
    ((2 : Nat) ≤ ((takewhilerange ([1, 2, 5, 3] : List Nat) (fun x => decide (x < 5))).collect).length) ∧
    ((fun x : Nat => decide (x < 5)) 5 = false) ∧
    ((2 : Nat) ≤ ((takewhilerange ([1, 2, 5, 3] : List Nat) (fun x => decide (x < 5))).collect).length) := by
  have h := takeWhile_boundary ([1, 2, 5, 3] : List Nat) (fun x => decide (x < 5))
  exact ⟨h.1 2 (by decide), h.2.2.1 [1, 2] [5, 3] (by decide) (by decide),
    h.2.2.2.1 5 (by decide), h.2.2.2.2 2 (by decide)⟩

/-- Claim C4: for `0 ≤ a ≤ b ≤ length S`, collecting `slice(S, a, b)` equals
collecting `take(S, b)` with its first `a` elements dropped. -/
theorem slice_take_drop (S : List α) (a b : Nat) (hab : a ≤ b) (hb : b ≤ S.length) :
    (slice S a b).collect = ((take S b).collect).drop a := by
  simp only [slice, take, takerange, takewhilerange, TakeView.collect, takeWhileCollect_true]
  exact (List.drop_take b a S).symm

/-- Witness for C4 at `S = [1, 2, 3, 4]`, `a = 1`, `b = 3`. -/
theorem slice_take_drop_witness :
    (1 : Nat) ≤ 3 ∧ (3 : Nat) ≤ ([1, 2, 3, 4] : List Nat).length ∧
    (slice ([1, 2, 3, 4] : List Nat) 1 3).collect =
      ((take ([1, 2, 3, 4] : List Nat) 3).collect).drop 1 :=
  ⟨by decide, by decide, slice_take_drop [1, 2, 3, 4] 1 3 (by decide) (by decide)⟩

theorem concatCollect_eq_join (L : List (List α)) : concatCollect L = L.flatten := by
  induction L using concatCollect.induct with
  | case1 => simp [concatCollect]
  | case2 rest ih => simp [concatCollect, ih]
  | case3 x xs rest ih => simp [concatCollect, ih]

/-- Claim C3: for a tuple of at least two sequences with one element type,
collecting the concatenation yields the sequences flattened in order, and its
length is the sum of the individual lengths. -/
theorem concat_length_order (L : List (List α)) (h : 2 ≤ L.length) :
    concatCollect L = L.flatten ∧
    (concatCollect L).length = (L.map List.length).sum := by
  refine ⟨concatCollect_eq_join L, ?_⟩
  rw [concatCollect_eq_join L]
  exact List.length_flatten L

/-- Witness for C3 at `S₁ = [1, 2, 3]`, `S₂ = [4, 5]`. -/
theorem concat_length_order_witness :
    (2 : Nat) ≤ ([[1, 2, 3], [4, 5]] : List (List Nat)).length ∧
    (concatCollect ([[1, 2, 3], [4, 5]] : List (List Nat)) =
        ([[1, 2, 3], [4, 5]] : List (List Nat)).flatten ∧
      (concatCollect ([[1, 2, 3], [4, 5]] : List (List Nat))).length =
        (([[1, 2, 3], [4, 5]] : List (List Nat)).map List.length).sum) :=
  ⟨by decide, concat_length_order [[1, 2, 3], [4, 5]] (by decide)⟩

/-- Claim C5: dereferencing a map cursor returns the synthesized value
obtained by applying the stored function to the dereferenced source element —
a value of the function's return type, not a storage location of the backing
sequence — and member access goes through a `FakePointerProxy` owning exactly
that one synthesized value, so no reference to a temporary is exposed. -/
theorem map_deref_synthesized (st : List α) (f : α → β) (i : Nat) (h : i < st.length) :
    MapIterator.star st ⟨i, f⟩ h = f (sourceDeref st i h) ∧
    (MapIterator.arrow st ⟨i, f⟩ h).value = f (sourceDeref st i h) :=
  ⟨rfl, rfl⟩

/-- Witness for C5 at `st = [10, 20, 30]`, `f x = x + 1`, `i = 1`. -/
theorem map_deref_synthesized_witness :
    MapIterator.star ([10, 20, 30] : List Nat) ⟨1, fun x => x + 1⟩ (by decide) = 21 ∧
    (MapIterator.arrow ([10, 20, 30] : List Nat) ⟨1, fun x => x + 1⟩ (by decide)).value = 21 := by
  have h := map_deref_synthesized ([10, 20, 30] : List Nat) (fun x => x + 1) 1 (by decide)
  exact ⟨h.1.trans rfl, h.2.trans rfl⟩

/-- Claim C6: the map cursor's comparison operators satisfy exactly the stated
derivations — `==` is the negation of `!=`, which delegates to source
inequality; `>` is `other < self`; `<=` is `!(other < self)`; `>=` is
`!(self < other)`; `<` delegates to the source cursors' `<` — and therefore
agree semantically with the source positions' order. -/
theorem map_comparison_ops (a b : MapIterator α β) :
    MapIterator.beq a b = !(MapIterator.ne a b) ∧
    MapIterator.ne a b = decide (a._iterator ≠ b._iterator) ∧
    MapIterator.gt a b = MapIterator.lt b a ∧
    MapIterator.le a b = !(MapIterator.lt b a) ∧
    MapIterator.ge a b = !(MapIterator.lt a b) ∧
    MapIterator.lt a b = decide (a._iterator < b._iterator) ∧
    (MapIterator.beq a b = true ↔ a._iterator = b._iterator) ∧
    (MapIterator.le a b = true ↔ a._iterator ≤ b._iterator) ∧
    (MapIterator.ge a b = true ↔ b._iterator ≤ a._iterator) ∧
    (MapIterator.gt a b = true ↔ b._iterator < a._iterator) := by
  refine ⟨rfl, rfl, rfl, rfl, rfl, rfl, ?_, ?_, ?_, ?_⟩ <;>
    simp [MapIterator.beq, MapIterator.ne, MapIterator.le, MapIterator.ge,
      MapIterator.gt, MapIterator.lt]

/-- Witness for C6 at cursors over source positions 1 and 2 (and 3 with 3). -/
theorem map_comparison_ops_witness :
    MapIterator.le (⟨1, fun x : Nat => x⟩ : MapIterator Nat Nat) ⟨2, fun x : Nat => x⟩ = true ∧
    MapIterator.beq (⟨3, fun x : Nat => x⟩ : MapIterator Nat Nat) ⟨3, fun x : Nat => x⟩ = true := by
  refine ⟨?_, ?_⟩
  · exact (map_comparison_ops _ _).2.2.2.2.2.2.2.1.mpr (by decide)
  · exact (map_comparison_ops _ _).2.2.2.2.2.2.1.mpr rfl

/-- Claim C10: post-increment returns a cursor equal to the cursor's value
before the call and leaves the cursor equal to the result of pre-increment;
symmetrically, post-decrement returns the prior value and leaves the cursor
equal to the result of pre-decrement. -/
theorem map_post_ops (it : MapIterator α β) :
    (MapIterator.postInc it).1 = it ∧
    (MapIterator.postInc it).2 = MapIterator.preInc it ∧
    MapIterator.beq (MapIterator.postInc it).1 it = true ∧
    MapIterator.beq (MapIterator.postInc it).2 (MapIterator.preInc it) = true ∧
    (MapIterator.postDec it).1 = it ∧
    (MapIterator.postDec it).2 = MapIterator.preDec it ∧
    MapIterator.beq (MapIterator.postDec it).1 it = true ∧
    MapIterator.beq (MapIterator.postDec it).2 (MapIterator.preDec it) = true := by
  refine ⟨rfl, rfl, ?_, ?_, rfl, rfl, ?_, ?_⟩ <;>
    simp [MapIterator.beq, MapIterator.ne, MapIterator.postInc, MapIterator.postDec,
      MapIterator.preInc, MapIterator.preDec]

/-- Witness for C10 at the cursor over source position 5. -/
theorem map_post_ops_witness :
    (MapIterator.postInc (⟨5, fun x : Nat => x⟩ : MapIterator Nat Nat)).1 =
      ⟨5, fun x : Nat => x⟩ ∧
    (MapIterator.postDec (⟨5, fun x : Nat => x⟩ : MapIterator Nat Nat)).2 =
      MapIterator.preDec ⟨5, fun x : Nat => x⟩ :=
  ⟨(map_post_ops _).1, (map_post_ops _).2.2.2.2.2.1⟩

theorem isAllSame_iff (a b : Nat) (l : List Nat) :
    IsAllSame a b l = true ↔ ∀ x ∈ b :: l, x = a := by
  induction l generalizing a b with
  | nil =>
    simp only [IsAllSame, decide_eq_true_eq]
    constructor
    · rintro rfl
      intro x hx
      rcases List.mem_cons.mp hx with rfl | hx
      · rfl
      · cases hx
    · intro h
      exact (h b (List.mem_cons_self b [])).symm
  | cons m more ih =>
    simp only [IsAllSame, Bool.and_eq_true, decide_eq_true_eq, ih]
    constructor
    · rintro ⟨rfl, h⟩
      intro x hx
      rcases List.mem_cons.mp hx with rfl | hx
      · rfl
      · exact h x hx
    · intro h
      have hb : b = a := h b (List.mem_cons_self b _)
      refine ⟨hb.symm, ?_⟩
      intro x hx
      exact (h x (List.mem_cons_of_mem b hx)).trans hb.symm

theorem allSameCheck_iff (l : List Nat) (h : 2 ≤ l.length) :
    allSameCheck l = true ↔ ∀ x ∈ l, ∀ y ∈ l, x = y := by
  cases l with
  | nil => simp only [List.length_nil] at h; omega
  | cons t1 tl =>
    cases tl with
    | nil => simp only [List.length_cons, List.length_nil] at h; omega
    | cons t2 more =>
      simp only [allSameCheck, isAllSame_iff]
      constructor
      · intro h2 x hx y hy
        have hx1 : x = t1 := by
          rcases List.mem_cons.mp hx with rfl | hx
          · rfl
          · exact h2 x hx
        have hy1 : y = t1 := by
          rcases List.mem_cons.mp hy with rfl | hy
          · rfl
          · exact h2 y hy
        rw [hx1, hy1]
      · intro h2 x hx
        exact h2 x (List.mem_cons_of_mem t1 hx) t1 (List.mem_cons_self t1 _)

theorem allSameCheck_map_iff (f : IterTraits → Nat) (its : List IterTraits)
    (h : 2 ≤ its.length) :
    allSameCheck (its.map f) = true ↔ ∀ a ∈ its, ∀ b ∈ its, f a = f b := by
  rw [allSameCheck_iff _ (by simpa using h)]
  constructor
  · intro hall a ha b hb
    exact hall (f a) (List.mem_map_of_mem f ha) (f b) (List.mem_map_of_mem f hb)
  · intro hall x hx y hy
    obtain ⟨a, ha, rfl⟩ := List.mem_map.mp hx
    obtain ⟨b, hb, rfl⟩ := List.mem_map.mp hy
    exact hall a ha b hb

/-- Claim C7: constructing a concatenation from fewer than 2 sequences, or
from sequences whose value, reference or pointer types differ, is rejected by
`concatrange`'s construction-time checks; a view is produced exactly when the
pack is valid, so no invalid view exists to fail later. -/
theorem concatrange_construction_check (its : List IterTraits) :
    (∃ v, concatrange its = Except.ok v) ↔
      (2 ≤ its.length ∧
        ∀ a ∈ its, ∀ b ∈ its,
          a.value = b.value ∧ a.pointer = b.pointer ∧ a.ref = b.ref) := by
  constructor
  · rintro ⟨v, hv⟩
    unfold concatrange at hv
    by_cases h1 : its.length < 2
    · rw [if_pos h1] at hv
      exact absurd hv (by simp)
    rw [if_neg h1] at hv
    by_cases h2 : (!allSameCheck (its.map IterTraits.value)) = true
    · rw [if_pos h2] at hv
      exact absurd hv (by simp)
    rw [if_neg h2] at hv
    by_cases h3 : (!allSameCheck (its.map IterTraits.pointer)) = true
    · rw [if_pos h3] at hv
      exact absurd hv (by simp)
    rw [if_neg h3] at hv
    by_cases h4 : (!allSameCheck (its.map IterTraits.ref)) = true
    · rw [if_pos h4] at hv
      exact absurd hv (by simp)
    rw [if_neg h4] at hv
    simp only [Bool.not_eq_true, Bool.not_eq_false'] at h2 h3 h4
    refine ⟨by omega, ?_⟩
    intro a ha b hb
    exact ⟨(allSameCheck_map_iff IterTraits.value its (by omega)).mp h2 a ha b hb,
      (allSameCheck_map_iff IterTraits.pointer its (by omega)).mp h3 a ha b hb,
      (allSameCheck_map_iff IterTraits.ref its (by omega)).mp h4 a ha b hb⟩
  · rintro ⟨hlen, hall⟩
    refine ⟨its, ?_⟩
    have h1 : ¬ its.length < 2 := by omega
    have h2 : allSameCheck (its.map IterTraits.value) = true :=
      (allSameCheck_map_iff IterTraits.value its hlen).mpr
        (fun a ha b hb => (hall a ha b hb).1)
    have h3 : allSameCheck (its.map IterTraits.pointer) = true :=
      (allSameCheck_map_iff IterTraits.pointer its hlen).mpr
        (fun a ha b hb => (hall a ha b hb).2.1)
    have h4 : allSameCheck (its.map IterTraits.ref) = true :=
      (allSameCheck_map_iff IterTraits.ref its hlen).mpr
        (fun a ha b hb => (hall a ha b hb).2.2)
    simp [concatrange, h1, h2, h3, h4]

/-- Witness for C7: a matching pack of two is accepted; a pack of one and a
pack with a value-type mismatch are rejected. -/
theorem concatrange_construction_check_witness :
    (∃ v, concatrange [⟨0, 0, 0⟩, ⟨0, 0, 0⟩] = Except.ok v) ∧
    ¬ (∃ v, concatrange [⟨0, 0, 0⟩] = Except.ok v) ∧
    ¬ (∃ v, concatrange [⟨0, 0, 0⟩, ⟨1, 0, 0⟩] = Except.ok v) := by
  refine ⟨(concatrange_construction_check _).mpr ⟨by decide, by decide⟩, ?_, ?_⟩
  · intro hex
    have h := (concatrange_construction_check _).mp hex
    exact absurd h.1 (by decide)
  · intro hex
    have h := (concatrange_construction_check _).mp hex
    exact absurd (h.2 ⟨0, 0, 0⟩ (by decide) ⟨1, 0, 0⟩ (by decide)).1 (by decide)

theorem tier_min_rank (a b : Tier) : (Tier.min a b).rank = Nat.min a.rank b.rank := by
  cases a <;> cases b <;> decide

theorem tierMin_rank (l : List Tier) :
    (tierMin l).rank = (l.map Tier.rank).foldr Nat.min 2 := by
  induction l with
  | nil => rfl
  | cons t ts ih => simp [tierMin, tier_min_rank, ih]

theorem le_foldr_min (k c : Nat) (l : List Nat) :
    k ≤ l.foldr Nat.min c ↔ (k ≤ c ∧ ∀ r ∈ l, k ≤ r) := by
  induction l with
  | nil => simp
  | cons x xs ih =>
    simp only [List.foldr_cons, Nat.le_min, ih, List.mem_cons]
    constructor
    · rintro ⟨hx, hc, hall⟩
      refine ⟨hc, ?_⟩
      intro r hr
      rcases hr with rfl | hr
      · exact hx
      · exact hall r hr
    · rintro ⟨hc, hall⟩
      exact ⟨hall x (Or.inl rfl), hc, fun r hr => hall r (Or.inr hr)⟩

theorem le_tierMin_rank (k : Nat) (srcs : List Tier) :
    k ≤ (tierMin srcs).rank ↔ (k ≤ 2 ∧ ∀ t ∈ srcs, k ≤ t.rank) := by
  rw [tierMin_rank, le_foldr_min]
  constructor
  · rintro ⟨hc, hall⟩
    exact ⟨hc, fun t ht => hall t.rank (List.mem_map_of_mem Tier.rank ht)⟩
  · rintro ⟨hc, hall⟩
    refine ⟨hc, ?_⟩
    intro r hr
    obtain ⟨t, ht, rfl⟩ := List.mem_map.mp hr
    exact hall t ht

/-- Claim C8: each adaptor cursor's capability tier equals the minimum tier
among the cursors it wraps (map and take wrap one source cursor, concatenate
wraps N); it supports decrement exactly when every wrapped cursor does,
supports offset/distance/ordering exactly when every wrapped cursor does, and
never claims a stronger tier than a wrapped cursor supports. -/
theorem adaptor_tier_min (s : Tier) (srcs : List Tier) :
    mapIteratorCategory s = tierMin [s] ∧
    takeIteratorCategory s = tierMin [s] ∧
    concatenateIteratorCategory srcs = tierMin srcs ∧
    ((concatenateIteratorCategory srcs).supportsDecrement = true ↔
      ∀ t ∈ srcs, t.supportsDecrement = true) ∧
    ((concatenateIteratorCategory srcs).supportsRandomAccess = true ↔
      ∀ t ∈ srcs, t.supportsRandomAccess = true) ∧
    (∀ t ∈ srcs, (concatenateIteratorCategory srcs).rank ≤ t.rank) ∧
    (mapIteratorCategory s).rank ≤ s.rank ∧
    (takeIteratorCategory s).rank ≤ s.rank := by
  have hsingle : tierMin [s] = s := by
    cases s <;> rfl
  refine ⟨hsingle.symm, hsingle.symm, rfl, ?_, ?_, ?_, Nat.le_refl _, Nat.le_refl _⟩
  · simp only [concatenateIteratorCategory, Tier.supportsDecrement, decide_eq_true_eq]
    rw [le_tierMin_rank 1 srcs]
    simp
  · simp only [concatenateIteratorCategory, Tier.supportsRandomAccess, decide_eq_true_eq]
    rw [le_tierMin_rank 2 srcs]
    simp
  · intro t ht
    exact ((le_tierMin_rank (tierMin srcs).rank srcs).mp (Nat.le_refl _)).2 t ht

/-- Witness for C8 at a map over a forward source and a concatenation of a
random-access and a bidirectional source. -/
theorem adaptor_tier_min_witness :
    mapIteratorCategory Tier.forward = tierMin [Tier.forward] ∧
    (concatenateIteratorCategory [Tier.randomAccess, Tier.bidirectional]).supportsDecrement
      = true ∧
    (concatenateIteratorCategory [Tier.randomAccess, Tier.bidirectional]).rank ≤
      Tier.bidirectional.rank := by
  have h := adaptor_tier_min Tier.forward [Tier.randomAccess, Tier.bidirectional]
  exact ⟨h.1, h.2.2.2.1.mpr (by decide), h.2.2.2.2.2.1 Tier.bidirectional (by decide)⟩

/-- Claim C9: for a take view over a mutable backing array, assigning `v`
through the dereferenced cursor at offset `k` (with `k < n ≤ length`) makes
backing element `k` equal to `v`, changes no other element, preserves the
array's length, and the collected take view afterwards is the original
collection with only position `k` replaced. -/
theorem take_assign_mutates (st : List α) (n k : Nat) (v : α)
    (hk : k < n) (hn : n ≤ st.length) :
    (takeAssign st k v)[k]? = some v ∧
    (∀ j : Nat, j ≠ k → (takeAssign st k v)[j]? = st[j]?) ∧
    (takeAssign st k v).length = st.length ∧
    (take (takeAssign st k v) n).collect = ((take st n).collect).set k v := by
  have hkl : k < st.length := Nat.lt_of_lt_of_le hk hn
  refine ⟨List.getElem?_set_self hkl, ?_, List.length_set st k v, ?_⟩
  · intro j hj
    exact List.getElem?_set_ne (Ne.symm hj)
  · simp only [take, takerange, takewhilerange, TakeView.collect, takeWhileCollect_true,
      takeAssign]
    exact List.set_take

/-- Witness for C9 at the test's input: `array = [1, ..., 10]`, `take(array,
3)`, assigning 0 through the begin cursor (offset 0). -/
theorem take_assign_mutates_witness :
    (takeAssign ([1, 2, 3, 4, 5, 6, 7, 8, 9, 10] : List Nat) 0 0)[0]? = some 0 ∧
    (takeAssign ([1, 2, 3, 4, 5, 6, 7, 8, 9, 10] : List Nat) 0 0)[1]? =
      ([1, 2, 3, 4, 5, 6, 7, 8, 9, 10] : List Nat)[1]? ∧
    (take (takeAssign ([1, 2, 3, 4, 5, 6, 7, 8, 9, 10] : List Nat) 0 0) 3).collect =
      ((take ([1, 2, 3, 4, 5, 6, 7, 8, 9, 10] : List Nat) 3).collect).set 0 0 := by
  have h := take_assign_mutates ([1, 2, 3, 4, 5, 6, 7, 8, 9, 10] : List Nat) 3 0 0
    (by decide) (by decide)
  exact ⟨h.1, h.2.1 1 (by decide), h.2.2.2⟩

end LzSpec
